import Mathlib

/-!
Verification of the streaming dedup reader (`readJsonFileLineByLine`) of
`src/server/nextjs/src/route.ts` (openship).

The reader consumes a text artifact line by line, skips blank lines, decodes
each remaining line as a JSON value, derives a composite key
`obj.s + "::" + obj.o`, and keeps only the first record seen for each key.
Per-line decode failures are reported on a diagnostic channel and dropped;
failure to open the resource fails the whole call.

Modelling choices (shallow embedding):
- JSON values are the inductive `Json`; `JSON.parse` is a host-library
  primitive, so the reader is parameterised by a decoder
  `parse : String → Option Json` (`none` = the parse threw).
- JavaScript property access `obj.s` is `getField`: `undefined` (here `none`)
  on everything but objects, except that access on `null` throws a TypeError,
  which the source's `try`/`catch` turns into a dropped line — `mangle`
  returns `none` exactly there.
- String coercion of `undefined`/values by the `+` operator is `jsToString`
  (ECMAScript ToString: `undefined`, `null`, `true`/`false`, decimal
  numerals, identity on strings, comma-join for arrays, `[object Object]`).
- The readline interface with `crlfDelay: Infinity` splits on `\r\n`, `\n`
  and bare `\r`, and flushes a final unterminated line only when non-empty:
  `splitLines`.
- The filesystem is a map `fs : String → Option String`; a locator that
  cannot be opened (`none`) makes the call fail (`Except.error`), matching
  the rejected promise of the source.
- `console.error` diagnostics are accumulated in `ReaderState.errors` (one
  entry per offending raw line).
-/

/-- A JSON value, as produced by a successful `JSON.parse`. -/
inductive Json where
  | null : Json
  | bool : Bool → Json
  | num : Int → Json
  | str : String → Json
  | arr : List Json → Json
  | obj : List (String × Json) → Json

mutual
/-- ECMAScript ToString as invoked on elements while joining an array
(`null` and `undefined` become the empty string inside arrays). -/
def jsElemString : Json → String
  | Json.null => ""
  | Json.bool b => if b then "true" else "false"
  | Json.num n => toString n
  | Json.str s => s
  | Json.arr xs => String.intercalate "," (jsElemStringList xs)
  | Json.obj _ => "[object Object]"

def jsElemStringList : List Json → List String
  | [] => []
  | x :: xs => jsElemString x :: jsElemStringList xs
end

/-- ECMAScript ToString of a defined JSON value (top level). -/
def jsDisplay : Json → String
  | Json.null => "null"
  | v => jsElemString v

/-- ECMAScript ToString of a property-access result, where `none` models
`undefined`. This is the coercion performed by `+` against a string. -/
def jsToString : Option Json → String
  | none => "undefined"
  | some v => jsDisplay v

/-- JavaScript property access on a JSON value: a lookup on objects,
`undefined` (`none`) on every other non-null value. Access on `null`
throws and is handled separately in `mangle`. -/
def getField : Json → String → Option Json
  | Json.obj fields, k => findField k fields
  | _, _ => none
where
  findField (k : String) : List (String × Json) → Option Json
    | [] => none
    | (k₂, v) :: rest => if k₂ = k then some v else findField k rest

/-- The composite key `obj.s + "::" + obj.o` of route.ts line 17. Accessing
a property of `null` throws a TypeError inside the `try` block, so `mangle`
is `none` exactly on `Json.null`. -/
def mangle : Json → Option String
  | Json.null => none
  | v => some (jsToString (getField v "s") ++ "::" ++ jsToString (getField v "o"))

/-- Line splitting of the readline interface with `crlfDelay: Infinity`:
a line ends at `\r\n`, at a bare `\n`, or at a bare `\r`; at end of input the
pending buffer is emitted only when non-empty. The accumulator holds the
current line reversed. -/
def splitLinesAux : List Char → List Char → List String
  | [], acc => if acc.isEmpty then [] else [String.mk acc.reverse]
  | '\r' :: '\n' :: rest, acc => String.mk acc.reverse :: splitLinesAux rest []
  | c :: rest, acc =>
    if c = '\n' ∨ c = '\r' then String.mk acc.reverse :: splitLinesAux rest []
    else splitLinesAux rest (c :: acc)

/-- Split a text into the lines the readline interface would emit. -/
def splitLines (s : String) : List String :=
  splitLinesAux s.data []

/-- An ECMAScript WhiteSpace or LineTerminator code unit (the common ones),
as stripped by `String.prototype.trim`. -/
def jsWhitespace (c : Char) : Bool :=
  c == ' ' || c == '\t' || c == '\n' || c == '\r' || c == '\x0b' || c == '\x0c'

/-- The `line.trim()` of route.ts line 14: strip leading and trailing
whitespace. The loop body only tests the result for truthiness (emptiness). -/
def jsTrim (s : String) : String :=
  String.mk (((s.data.dropWhile jsWhitespace).reverse.dropWhile jsWhitespace).reverse)

/-- The call-local state of one invocation of the reader: the `set` of seen
keys, the accumulated `jsonObjects`, and the diagnostic channel `errors`
(the raw offending lines passed to `console.error`). -/
structure ReaderState where
  set : List String
  jsonObjects : List Json
  errors : List String

/-- One iteration of the `for await (const line of rl)` loop of route.ts
lines 13–28: skip blank lines, decode, derive the key, keep the record only
when its key is new; a throwing decode or key derivation reports the line. -/
def processLine (parse : String → Option Json) (st : ReaderState) (line : String) :
    ReaderState :=
  if jsTrim line = "" then st
  else
    match parse line with
    | none => { st with errors := st.errors ++ [line] }
    | some obj =>
      match mangle obj with
      | none => { st with errors := st.errors ++ [line] }
      | some mangled =>
        if mangled ∈ st.set then st
        else { st with set := st.set ++ [mangled], jsonObjects := st.jsonObjects ++ [obj] }

/-- Run the reader loop over a list of lines, starting from empty state. -/
def readLines (parse : String → Option Json) (lines : List String) : ReaderState :=
  lines.foldl (processLine parse) ⟨[], [], []⟩

/-- The whole exported function `readJsonFileLineByLine` of route.ts: open
the resource (`fs filePath`), fail the call when it cannot be opened, else
stream the lines through the dedup loop and return the record list. -/
def readJsonFileLineByLine (parse : String → Option Json)
    (fs : String → Option String) (filePath : String) : Except String (List Json) :=
  match fs filePath with
  | none => Except.error filePath
  | some content => Except.ok (readLines parse (splitLines content)).jsonObjects

/-- The decode outcome of a single line: the record and its key when the
line is non-blank, decodes, and key derivation does not throw. -/
def decodeLine (parse : String → Option Json) (l : String) : Option (Json × String) :=
  if jsTrim l = "" then none
  else
    match parse l with
    | none => none
    | some v =>
      match mangle v with
      | none => none
      | some k => some (v, k)

/-- The stream of successfully decoded records of the non-blank lines,
paired with their keys, in stream order (before any deduplication). -/
def decodedRecords (parse : String → Option Json) (lines : List String) :
    List (Json × String) :=
  lines.filterMap (decodeLine parse)

/-- Whether a line makes the `try` block of route.ts throw (and hence be
reported on the diagnostic channel): it is non-blank and either fails to
decode or decodes to `null`. -/
def lineFails (parse : String → Option Json) (l : String) : Bool :=
  if jsTrim l = "" then false
  else
    match parse l with
    | none => true
    | some v => (mangle v).isNone

/-- Specification-side dedup (spec §3, §8): keep each record exactly at the
first occurrence of its key, given the keys already seen. -/
def keepFirstByKey : List (Json × String) → List String → List (Json × String)
  | [], _ => []
  | p :: rest, seen =>
    if p.2 ∈ seen then keepFirstByKey rest seen
    else p :: keepFirstByKey rest (p.2 :: seen)

/-- Specification-side key order (spec §8 order preservation): the distinct
keys of a stream in order of first occurrence. -/
def firstOccurrenceKeys : List String → List String → List String
  | [], _ => []
  | k :: ks, seen =>
    if k ∈ seen then firstOccurrenceKeys ks seen
    else k :: firstOccurrenceKeys ks (k :: seen)

/-- A text built from the given lines, each terminated by the given line
terminator. -/
def terminateLines (eol : String) : List String → String
  | [] => ""
  | l :: ls => l ++ eol ++ terminateLines eol ls

/-- Test decoder standing in for `JSON.parse` in the concrete witnesses; the
reader theorems are universally quantified over the decoder, so any concrete
decoder instantiates them. -/
def sampleParse : String → Option Json := fun l =>
  if l = "recAB" then some (Json.obj [("s", Json.str "A"), ("o", Json.str "B")])
  else if l = "recAB2" then
    some (Json.obj [("s", Json.str "A"), ("o", Json.str "B"), ("n", Json.num 2)])
  else if l = "recAC" then some (Json.obj [("s", Json.str "A"), ("o", Json.str "C")])
  else if l = "recNull" then some Json.null
  else if l = "recNum" then some (Json.num 5)
  else if l = "recBare" then some (Json.obj [("x", Json.num 7)])
  else if l = "recBare2" then some (Json.obj [("y", Json.num 8)])
  else if l = "recNumS" then some (Json.obj [("s", Json.num 1), ("o", Json.str "B")])
  else if l = "recStrS" then some (Json.obj [("s", Json.str "1"), ("o", Json.str "B")])
  else none

/-- Test filesystem for the concrete witnesses. -/
def sampleFs : String → Option String := fun p =>
  if p = "graph" then some "recAB\nrecAB2\nrecAC\n"
  else if p = "blank" then some " \n\n\t\n"
  else none


/-! ### Core lemmas about the reader loop -/

theorem processLine_blank (parse : String → Option Json) (st : ReaderState)
    (l : String) (h : jsTrim l = "") : processLine parse st l = st := by
  simp [processLine, h]

theorem keepFirstByKey_congr (recs : List (Json × String)) :
    ∀ s₁ s₂ : List String, (∀ x, x ∈ s₁ ↔ x ∈ s₂) →
      keepFirstByKey recs s₁ = keepFirstByKey recs s₂ := by
  induction recs with
  | nil => intro s₁ s₂ _; rfl
  | cons p rest ih =>
    intro s₁ s₂ h
    by_cases hp : p.2 ∈ s₁
    · have hp₂ : p.2 ∈ s₂ := (h p.2).mp hp
      simp [keepFirstByKey, hp, hp₂, ih s₁ s₂ h]
    · have hp₂ : p.2 ∉ s₂ := fun hx => hp ((h p.2).mpr hx)
      simp only [keepFirstByKey]
      rw [if_neg hp, if_neg hp₂]
      refine congrArg (List.cons p) (ih _ _ ?_)
      intro x
      simp [h x]

theorem foldl_processLine_eq (parse : String → Option Json) (lines : List String) :
    ∀ st : ReaderState,
      lines.foldl (processLine parse) st =
        { set := st.set ++ (keepFirstByKey (decodedRecords parse lines) st.set).map Prod.snd,
          jsonObjects :=
            st.jsonObjects ++ (keepFirstByKey (decodedRecords parse lines) st.set).map Prod.fst,
          errors := st.errors ++ lines.filter (lineFails parse) } := by
  induction lines with
  | nil => intro st; simp [decodedRecords, keepFirstByKey]
  | cons l rest ih =>
    intro st
    rw [List.foldl_cons]
    by_cases hb : jsTrim l = ""
    · have h₁ : decodeLine parse l = none := by simp [decodeLine, hb]
      have hr : decodedRecords parse (l :: rest) = decodedRecords parse rest := by
        simp [decodedRecords, List.filterMap_cons, h₁]
      have h₂ : lineFails parse l = false := by simp [lineFails, hb]
      rw [processLine_blank parse st l hb, ih st, hr]
      simp [List.filter_cons, h₂]
    · match hp : parse l with
      | none =>
        have h₁ : decodeLine parse l = none := by simp [decodeLine, hb, hp]
        have hr : decodedRecords parse (l :: rest) = decodedRecords parse rest := by
          simp [decodedRecords, List.filterMap_cons, h₁]
        have h₂ : lineFails parse l = true := by simp [lineFails, hb, hp]
        have h₃ : processLine parse st l = { st with errors := st.errors ++ [l] } := by
          simp [processLine, hb, hp]
        rw [h₃, ih _, hr]
        simp [List.filter_cons, h₂]
      | some v =>
        match hm : mangle v with
        | none =>
          have h₁ : decodeLine parse l = none := by simp [decodeLine, hb, hp, hm]
          have hr : decodedRecords parse (l :: rest) = decodedRecords parse rest := by
            simp [decodedRecords, List.filterMap_cons, h₁]
          have h₂ : lineFails parse l = true := by simp [lineFails, hb, hp, hm]
          have h₃ : processLine parse st l = { st with errors := st.errors ++ [l] } := by
            simp [processLine, hb, hp, hm]
          rw [h₃, ih _, hr]
          simp [List.filter_cons, h₂]
        | some k =>
          have h₁ : decodeLine parse l = some (v, k) := by simp [decodeLine, hb, hp, hm]
          have hr : decodedRecords parse (l :: rest) = (v, k) :: decodedRecords parse rest := by
            simp [decodedRecords, List.filterMap_cons, h₁]
          have h₂ : lineFails parse l = false := by simp [lineFails, hb, hp, hm]
          by_cases hk : k ∈ st.set
          · have h₃ : processLine parse st l = st := by simp [processLine, hb, hp, hm, hk]
            rw [h₃, ih st, hr]
            simp [List.filter_cons, h₂, keepFirstByKey, hk]
          · have h₃ : processLine parse st l =
                { st with set := st.set ++ [k], jsonObjects := st.jsonObjects ++ [v] } := by
              simp [processLine, hb, hp, hm, hk]
            rw [h₃, ih _, hr]
            have hcongr : keepFirstByKey (decodedRecords parse rest) (st.set ++ [k]) =
                keepFirstByKey (decodedRecords parse rest) (k :: st.set) :=
              keepFirstByKey_congr _ _ _ (by intro x; simp [or_comm])
            simp only [keepFirstByKey]
            rw [if_neg hk, hcongr]
            simp [List.filter_cons, h₂, List.append_assoc]

theorem readLines_eq (parse : String → Option Json) (lines : List String) :
    readLines parse lines =
      { set := (keepFirstByKey (decodedRecords parse lines) []).map Prod.snd,
        jsonObjects := (keepFirstByKey (decodedRecords parse lines) []).map Prod.fst,
        errors := lines.filter (lineFails parse) } := by
  simpa [readLines] using foldl_processLine_eq parse lines ⟨[], [], []⟩

theorem decodeLine_mangle {parse : String → Option Json} {l : String} {v : Json}
    {k : String} (h : decodeLine parse l = some (v, k)) : mangle v = some k := by
  by_cases hb : jsTrim l = ""
  · simp [decodeLine, hb] at h
  · match hp : parse l with
    | none => simp [decodeLine, hb, hp] at h
    | some w =>
      match hm : mangle w with
      | none => simp [decodeLine, hb, hp, hm] at h
      | some k₂ =>
        simp only [decodeLine, hb, if_neg, hp, hm, Option.some.injEq, Prod.mk.injEq] at h
        rcases h with ⟨rfl, rfl⟩
        exact hm

theorem decodedRecords_mangle (parse : String → Option Json) (lines : List String) :
    ∀ p ∈ decodedRecords parse lines, mangle p.1 = some p.2 := by
  intro p hp
  rw [decodedRecords, List.mem_filterMap] at hp
  obtain ⟨l, _, hl⟩ := hp
  obtain ⟨v, k⟩ := p
  exact decodeLine_mangle hl

theorem keepFirstByKey_subset (recs : List (Json × String)) :
    ∀ seen p, p ∈ keepFirstByKey recs seen → p ∈ recs := by
  induction recs with
  | nil => intro seen p h; simp [keepFirstByKey] at h
  | cons q rest ih =>
    intro seen p h
    rw [keepFirstByKey] at h
    split at h
    · exact List.mem_cons_of_mem q (ih _ _ h)
    · rcases List.mem_cons.mp h with h | h
      · exact h ▸ List.mem_cons_self q rest
      · exact List.mem_cons_of_mem q (ih _ _ h)

theorem keepFirstByKey_nodup (recs : List (Json × String)) :
    ∀ seen, ((keepFirstByKey recs seen).map Prod.snd).Nodup ∧
      ∀ k ∈ (keepFirstByKey recs seen).map Prod.snd, k ∉ seen := by
  induction recs with
  | nil => intro seen; simp [keepFirstByKey]
  | cons q rest ih =>
    intro seen
    rw [keepFirstByKey]
    split
    · exact ih seen
    · rename_i hq
      obtain ⟨hnd, hdis⟩ := ih (q.2 :: seen)
      refine ⟨?_, ?_⟩
      · simp only [List.map_cons, List.nodup_cons]
        exact ⟨fun hmem => (hdis q.2 hmem) (List.mem_cons_self _ _), hnd⟩
      · intro k hk hkseen
        simp only [List.map_cons, List.mem_cons] at hk
        rcases hk with rfl | hk
        · exact hq hkseen
        · exact hdis k hk (List.mem_cons_of_mem _ hkseen)

theorem keepFirstByKey_find (recs : List (Json × String)) :
    ∀ (seen : List String) (k : String), k ∉ seen →
      (keepFirstByKey recs seen).find? (fun p => p.2 == k) =
        recs.find? (fun p => p.2 == k) := by
  induction recs with
  | nil => intro seen k _; rfl
  | cons q rest ih =>
    intro seen k hk
    rw [keepFirstByKey]
    split
    · rename_i hq
      have hne : (q.2 == k) = false := by
        simp only [beq_eq_false_iff_ne, ne_eq]
        intro he; exact hk (he ▸ hq)
      rw [ih seen k hk, List.find?_cons, hne]
    · rename_i hq
      by_cases he : q.2 = k
      · simp [List.find?_cons, he]
      · have hne : (q.2 == k) = false := by simp [he]
        rw [List.find?_cons, List.find?_cons, hne]
        refine ih _ k ?_
        intro hmem
        rcases List.mem_cons.mp hmem with rfl | hmem
        · exact he rfl
        · exact hk hmem

theorem filter_key_single (l : List (Json × String)) :
    ∀ (v : Json) (k : String), ((l.map Prod.snd).Nodup) → (v, k) ∈ l →
      l.filter (fun p => p.2 == k) = [(v, k)] := by
  induction l with
  | nil => intro v k _ h; simp at h
  | cons q rest ih =>
    intro v k hnd hm
    simp only [List.map_cons, List.nodup_cons] at hnd
    obtain ⟨hq, hnd⟩ := hnd
    rcases List.mem_cons.mp hm with h | hm
    · subst h
      rw [List.filter_cons]
      simp only [beq_self_eq_true, if_pos, cond_true]
      have : rest.filter (fun p => p.2 == k) = [] := by
        rw [List.filter_eq_nil_iff]
        intro p hp hbeq
        have hpk : p.2 = k := by simpa using hbeq
        exact hq (List.mem_map.mpr ⟨p, hp, hpk⟩)
      rw [this]
    · have hqk : (q.2 == k) = false := by
        simp only [beq_eq_false_iff_ne, ne_eq]
        intro he
        exact hq (List.mem_map.mpr ⟨(v, k), hm, he.symm⟩)
      rw [List.filter_cons, hqk]
      exact ih v k hnd hm

theorem keepFirstByKey_map_snd (recs : List (Json × String)) :
    ∀ seen, (keepFirstByKey recs seen).map Prod.snd =
      firstOccurrenceKeys (recs.map Prod.snd) seen := by
  induction recs with
  | nil => intro seen; rfl
  | cons q rest ih =>
    intro seen
    rw [keepFirstByKey]
    simp only [List.map_cons, firstOccurrenceKeys]
    by_cases h : q.2 ∈ seen
    · simp [h, ih]
    · simp [h, ih]

theorem keepFirst_keys_eq (parse : String → Option Json) (lines : List String) :
    ((keepFirstByKey (decodedRecords parse lines) []).map Prod.fst).map mangle =
      ((keepFirstByKey (decodedRecords parse lines) []).map Prod.snd).map some := by
  rw [List.map_map, List.map_map]
  refine List.map_congr_left ?_
  intro p hp
  simp only [Function.comp_apply]
  exact decodedRecords_mangle parse lines p (keepFirstByKey_subset _ _ _ hp)

/-- C1: the sequence returned by `readJsonFileLineByLine` contains no two
records with equal composite keys, and every key produced by a syntactically
valid non-blank line appears on exactly one returned record — the record of
the first line (in stream order) that produced that key. -/
theorem dedup_correct (parse : String → Option Json) (fs : String → Option String)
    (path content k : String)
    (hfs : fs path = some content)
    (hk : k ∈ (decodedRecords parse (splitLines content)).map Prod.snd) :
    ∃ out, readJsonFileLineByLine parse fs path = Except.ok out ∧
      (out.map mangle).Nodup ∧
      ∃ v, (decodedRecords parse (splitLines content)).find? (fun p => p.2 == k) =
            some (v, k) ∧
          out.filter (fun r => mangle r == some k) = [v] := by
  have hout : (readLines parse (splitLines content)).jsonObjects =
      (keepFirstByKey (decodedRecords parse (splitLines content)) []).map Prod.fst := by
    rw [readLines_eq]
  have hmkey : ∀ p ∈ keepFirstByKey (decodedRecords parse (splitLines content)) [],
      mangle p.1 = some p.2 := fun p hp =>
    decodedRecords_mangle parse (splitLines content) p (keepFirstByKey_subset _ _ p hp)
  have hnd : ((keepFirstByKey (decodedRecords parse (splitLines content)) []).map
      Prod.snd).Nodup := (keepFirstByKey_nodup _ []).1
  refine ⟨(keepFirstByKey (decodedRecords parse (splitLines content)) []).map Prod.fst,
    ?_, ?_, ?_⟩
  · simp only [readJsonFileLineByLine, hfs, hout]
  · rw [keepFirst_keys_eq]
    exact hnd.map (Option.some_injective String)
  · have hex : ∃ p ∈ decodedRecords parse (splitLines content), (p.2 == k) = true := by
      rw [List.mem_map] at hk
      obtain ⟨p, hpD, hpk⟩ := hk
      exact ⟨p, hpD, by simp [hpk]⟩
    have hsome : ((decodedRecords parse (splitLines content)).find?
        (fun p => p.2 == k)).isSome = true := List.find?_isSome.mpr hex
    obtain ⟨q, hq⟩ := Option.isSome_iff_exists.mp hsome
    have hqk : q.2 = k := by simpa using List.find?_some hq
    have hqpair : q = (q.1, k) := by rw [← hqk]
    refine ⟨q.1, by rw [← hqpair]; exact hq, ?_⟩
    have hfindKF : (keepFirstByKey (decodedRecords parse (splitLines content)) []).find?
        (fun p => p.2 == k) = some q := by
      rw [keepFirstByKey_find _ [] k (List.not_mem_nil k)]
      exact hq
    have hmemKF : (q.1, k) ∈ keepFirstByKey (decodedRecords parse (splitLines content)) [] :=
      hqpair ▸ List.mem_of_find?_eq_some hfindKF
    have hfilter : (keepFirstByKey (decodedRecords parse (splitLines content)) []).filter
        (fun p => p.2 == k) = [(q.1, k)] := filter_key_single _ q.1 k hnd hmemKF
    have hbeq : ∀ p ∈ keepFirstByKey (decodedRecords parse (splitLines content)) [],
        ((fun r => mangle r == some k) ∘ Prod.fst) p = (p.2 == k) := by
      intro p hp
      simp only [Function.comp_apply]
      rw [hmkey p hp]
      by_cases h : p.2 = k
      · simp [h]
      · simp [h]
    rw [List.filter_map, List.filter_congr hbeq, hfilter]
    rfl

/-- C2: the sequence returned by `readJsonFileLineByLine` is exactly the
keep-first-by-key dedup of the decoded record stream: records appear in the
relative order of the first occurrence of each distinct key, and a later
line with an already-seen key neither reorders the sequence nor replaces the
earlier record. -/
theorem order_preservation (parse : String → Option Json) (fs : String → Option String)
    (path content : String) (hfs : fs path = some content) :
    readJsonFileLineByLine parse fs path =
      Except.ok ((keepFirstByKey (decodedRecords parse (splitLines content)) []).map
        Prod.fst) ∧
    (readLines parse (splitLines content)).jsonObjects.map mangle =
      (firstOccurrenceKeys ((decodedRecords parse (splitLines content)).map Prod.snd)
        []).map some := by
  have hout : (readLines parse (splitLines content)).jsonObjects =
      (keepFirstByKey (decodedRecords parse (splitLines content)) []).map Prod.fst := by
    rw [readLines_eq]
  constructor
  · simp only [readJsonFileLineByLine, hfs, hout]
  · rw [hout, keepFirst_keys_eq, keepFirstByKey_map_snd]

/-- Witness for C1: on a concrete artifact with a duplicate key `A::B`, the
first record with that key is the unique one returned. -/
theorem dedup_correct_witness :
    ∃ out, readJsonFileLineByLine sampleParse sampleFs "graph" = Except.ok out ∧
      (out.map mangle).Nodup ∧
      ∃ v, (decodedRecords sampleParse
            (splitLines "recAB\nrecAB2\nrecAC\n")).find? (fun p => p.2 == "A::B") =
          some (v, "A::B") ∧
        out.filter (fun r => mangle r == some "A::B") = [v] :=
  dedup_correct sampleParse sampleFs "graph" "recAB\nrecAB2\nrecAC\n" "A::B"
    (by decide) (by decide)

/-- Witness for C2 on a concrete artifact. -/
theorem order_preservation_witness :
    readJsonFileLineByLine sampleParse sampleFs "graph" =
      Except.ok ((keepFirstByKey (decodedRecords sampleParse
        (splitLines "recAB\nrecAB2\nrecAC\n")) []).map Prod.fst) ∧
    (readLines sampleParse (splitLines "recAB\nrecAB2\nrecAC\n")).jsonObjects.map mangle =
      (firstOccurrenceKeys ((decodedRecords sampleParse
        (splitLines "recAB\nrecAB2\nrecAC\n")).map Prod.snd) []).map some :=
  order_preservation sampleParse sampleFs "graph" "recAB\nrecAB2\nrecAC\n" (by decide)

/-- C3: a line that fails to decode contributes nothing to the seen-key set
or the result sequence and does not abort the read: inserting it anywhere
leaves records and keys unchanged, and the diagnostics gain exactly the one
message for that line (none when it is blank, since blank lines are skipped
before decoding). -/
theorem malformed_line_resilience (parse : String → Option Json)
    (xs ys : List String) (l : String) (h : parse l = none) :
    (readLines parse (xs ++ l :: ys)).jsonObjects =
      (readLines parse (xs ++ ys)).jsonObjects ∧
    (readLines parse (xs ++ l :: ys)).set = (readLines parse (xs ++ ys)).set ∧
    (readLines parse (xs ++ l :: ys)).errors =
      (readLines parse xs).errors ++ (if jsTrim l = "" then [] else [l]) ++
        (readLines parse ys).errors := by
  have hdl : decodeLine parse l = none := by
    by_cases hb : jsTrim l = ""
    · simp [decodeLine, hb]
    · simp [decodeLine, hb, h]
  have hD : decodedRecords parse (xs ++ l :: ys) = decodedRecords parse (xs ++ ys) := by
    simp [decodedRecords, List.filterMap_append, List.filterMap_cons, hdl]
  simp only [readLines_eq]
  refine ⟨by rw [hD], by rw [hD], ?_⟩
  by_cases hb : jsTrim l = ""
  · have hLF : lineFails parse l = false := by simp [lineFails, hb]
    simp [List.filter_append, List.filter_cons, hLF, hb]
  · have hLF : lineFails parse l = true := by simp [lineFails, hb, h]
    simp [List.filter_append, List.filter_cons, hLF, hb, List.append_assoc]

/-- Witness for C3: inserting the undecodable line `bad` between two valid
lines. -/
theorem malformed_line_resilience_witness :
    (readLines sampleParse (["recAB"] ++ "bad" :: ["recAC"])).jsonObjects =
      (readLines sampleParse (["recAB"] ++ ["recAC"])).jsonObjects ∧
    (readLines sampleParse (["recAB"] ++ "bad" :: ["recAC"])).set =
      (readLines sampleParse (["recAB"] ++ ["recAC"])).set ∧
    (readLines sampleParse (["recAB"] ++ "bad" :: ["recAC"])).errors =
      (readLines sampleParse ["recAB"]).errors ++
        (if jsTrim "bad" = "" then [] else ["bad"]) ++
        (readLines sampleParse ["recAC"]).errors :=
  malformed_line_resilience sampleParse ["recAB"] ["recAC"] "bad" rfl

/-- C4: a locator that cannot be opened fails the whole call with a
propagated error naming the locator; in particular no (empty or partial)
record sequence is ever returned alongside or instead of the failure. -/
theorem missing_resource_fatal (parse : String → Option Json)
    (fs : String → Option String) (path : String) (h : fs path = none) :
    readJsonFileLineByLine parse fs path = Except.error path ∧
    ∀ out : List Json, readJsonFileLineByLine parse fs path ≠ Except.ok out := by
  refine ⟨by simp [readJsonFileLineByLine, h], ?_⟩
  intro out hc
  simp [readJsonFileLineByLine, h] at hc

/-- Witness for C4 at a locator absent from the test filesystem. -/
theorem missing_resource_fatal_witness :
    readJsonFileLineByLine sampleParse sampleFs "missing" = Except.error "missing" ∧
    ∀ out : List Json,
      readJsonFileLineByLine sampleParse sampleFs "missing" ≠ Except.ok out :=
  missing_resource_fatal sampleParse sampleFs "missing" (by decide)

theorem mangle_eq_of_ne_null {v : Json} (h : v ≠ Json.null) :
    mangle v = some (jsToString (getField v "s") ++ "::" ++ jsToString (getField v "o")) := by
  cases v with
  | null => exact absurd rfl h
  | bool b => rfl
  | num n => rfl
  | str s => rfl
  | arr xs => rfl
  | obj fields => rfl

/-- C5: the dedup key of a decoded record is exactly the string
`s ++ "::" ++ o` (the JS coercions of the two field accesses around the
fixed separator), and two decoded records are treated as duplicates iff
these key strings are equal under exact string equality: the second of two
decoded lines is dropped precisely when its key equals the first's. -/
theorem composite_key_exact (parse : String → Option Json) (l₁ l₂ : String)
    (v₁ v₂ : Json) (k₁ k₂ : String)
    (h₁ : parse l₁ = some v₁) (h₂ : parse l₂ = some v₂)
    (hm₁ : mangle v₁ = some k₁) (hm₂ : mangle v₂ = some k₂)
    (hb₁ : jsTrim l₁ ≠ "") (hb₂ : jsTrim l₂ ≠ "") :
    k₁ = jsToString (getField v₁ "s") ++ "::" ++ jsToString (getField v₁ "o") ∧
    (readLines parse [l₁, l₂]).jsonObjects = (if k₂ = k₁ then [v₁] else [v₁, v₂]) := by
  constructor
  · have hv₁ : v₁ ≠ Json.null := by
      intro he
      rw [he] at hm₁
      exact Option.noConfusion hm₁
    have heq := (mangle_eq_of_ne_null hv₁).symm.trans hm₁
    exact (Option.some_inj.mp heq).symm
  · simp only [readLines, List.foldl_cons, List.foldl_nil]
    have s₁ : processLine parse ⟨[], [], []⟩ l₁ = ⟨[k₁], [v₁], []⟩ := by
      simp [processLine, hb₁, h₁, hm₁]
    rw [s₁]
    by_cases he : k₂ = k₁
    · have s₂ : processLine parse ⟨[k₁], [v₁], []⟩ l₂ = ⟨[k₁], [v₁], []⟩ := by
        simp [processLine, hb₂, h₂, hm₂, he]
      rw [s₂, if_pos he]
    · have s₂ : processLine parse ⟨[k₁], [v₁], []⟩ l₂ = ⟨[k₁, k₂], [v₁, v₂], []⟩ := by
        simp [processLine, hb₂, h₂, hm₂, he]
      rw [s₂, if_neg he]

/-- Witness for C5: `recAB` and `recAB2` carry different payloads but equal
keys, so the second is dropped. -/
theorem composite_key_exact_witness :
    "A::B" = jsToString (getField (Json.obj [("s", Json.str "A"), ("o", Json.str "B")]) "s")
        ++ "::" ++
        jsToString (getField (Json.obj [("s", Json.str "A"), ("o", Json.str "B")]) "o") ∧
    (readLines sampleParse ["recAB", "recAB2"]).jsonObjects =
      (if "A::B" = "A::B" then [Json.obj [("s", Json.str "A"), ("o", Json.str "B")]]
       else [Json.obj [("s", Json.str "A"), ("o", Json.str "B")],
             Json.obj [("s", Json.str "A"), ("o", Json.str "B"), ("n", Json.num 2)]]) :=
  composite_key_exact sampleParse "recAB" "recAB2"
    (Json.obj [("s", Json.str "A"), ("o", Json.str "B")])
    (Json.obj [("s", Json.str "A"), ("o", Json.str "B"), ("n", Json.num 2)])
    "A::B" "A::B" rfl rfl rfl rfl (by decide) (by decide)

/-- C6: inserting a blank (empty or whitespace-only) line anywhere changes
nothing at all — same records, same seen keys, and no diagnostic. -/
theorem blank_line_transparent (parse : String → Option Json) (xs ys : List String)
    (l : String) (h : jsTrim l = "") :
    readLines parse (xs ++ l :: ys) = readLines parse (xs ++ ys) := by
  rw [readLines, readLines, List.foldl_append, List.foldl_append, List.foldl_cons,
    processLine_blank parse _ l h]

/-- Witness for C6 with a whitespace-only line. -/
theorem blank_line_transparent_witness :
    readLines sampleParse (["recAB"] ++ " \t" :: ["recAC"]) =
      readLines sampleParse (["recAB"] ++ ["recAC"]) :=
  blank_line_transparent sampleParse ["recAB"] ["recAC"] " \t" (by decide)

/-- C8: a readable artifact with zero lines, or only blank lines, yields the
empty sequence without failing. -/
theorem empty_input_empty_output (parse : String → Option Json)
    (fs : String → Option String) (path content : String)
    (hfs : fs path = some content)
    (hb : ∀ l ∈ splitLines content, jsTrim l = "") :
    readJsonFileLineByLine parse fs path = Except.ok [] := by
  simp only [readJsonFileLineByLine, hfs]
  have hD : decodedRecords parse (splitLines content) = [] := by
    rw [decodedRecords, List.filterMap_eq_nil_iff]
    intro l hl
    simp [decodeLine, hb l hl]
  rw [readLines_eq, hD]
  rfl

/-- Witness for C8 on an artifact of blank lines only. -/
theorem empty_input_empty_output_witness :
    readJsonFileLineByLine sampleParse sampleFs "blank" = Except.ok [] :=
  empty_input_empty_output sampleParse sampleFs "blank" " \n\n\t\n" (by decide) (by decide)

/-- C9: a line decoding to the JSON value `null` is dropped and reported on
the diagnostic channel (key derivation throws inside the same guarded
region as the parse), while any other non-object JSON value — number,
string, boolean, array — is keyed `"undefined::undefined"` and accepted as
a record when that key is unseen. -/
theorem null_line_dropped (parse : String → Option Json) (st : ReaderState)
    (l l₂ : String) (v : Json)
    (hb : jsTrim l ≠ "") (hnull : parse l = some Json.null)
    (hb₂ : jsTrim l₂ ≠ "") (hv : parse l₂ = some v)
    (hshape : match v with
      | Json.null => False
      | Json.obj _ => False
      | _ => True)
    (hunseen : "undefined::undefined" ∉ st.set) :
    processLine parse st l = { st with errors := st.errors ++ [l] } ∧
    mangle v = some "undefined::undefined" ∧
    processLine parse st l₂ =
      { st with set := st.set ++ ["undefined::undefined"],
                jsonObjects := st.jsonObjects ++ [v] } := by
  have hm : mangle v = some "undefined::undefined" := by
    cases v with
    | null => exact hshape.elim
    | bool b => rfl
    | num n => rfl
    | str s => rfl
    | arr xs => rfl
    | obj fields => exact hshape.elim
  refine ⟨?_, hm, ?_⟩
  · simp [processLine, hb, hnull, mangle]
  · simp [processLine, hb₂, hv, hm, hunseen]

/-- Witness for C9: `recNull` decodes to `null` and is reported; `recNum`
decodes to the number 5 and is accepted under `"undefined::undefined"`. -/
theorem null_line_dropped_witness :
    processLine sampleParse ⟨[], [], []⟩ "recNull" =
      { set := [], jsonObjects := [], errors := [] ++ ["recNull"] } ∧
    mangle (Json.num 5) = some "undefined::undefined" ∧
    processLine sampleParse ⟨[], [], []⟩ "recNum" =
      { set := [] ++ ["undefined::undefined"],
        jsonObjects := [] ++ [Json.num 5], errors := [] } :=
  null_line_dropped sampleParse ⟨[], [], []⟩ "recNull" "recNum" (Json.num 5)
    (by decide) rfl (by decide) rfl trivial (by decide)

/-- C10: key derivation string-coerces the `s` and `o` fields rather than
requiring strings: a record missing a field contributes the literal string
`undefined` to its key, so two records lacking both fields collide on
`"undefined::undefined"` and only the first is returned; and a numeric
`s = 1` yields the same key as a string `s = "1"` with the same `o`. -/
theorem key_coercion (parse : String → Option Json) (l₁ l₂ : String)
    (f₁ f₂ : List (String × Json))
    (h₁ : parse l₁ = some (Json.obj f₁)) (h₂ : parse l₂ = some (Json.obj f₂))
    (hb₁ : jsTrim l₁ ≠ "") (hb₂ : jsTrim l₂ ≠ "")
    (hs₁ : getField (Json.obj f₁) "s" = none) (ho₁ : getField (Json.obj f₁) "o" = none)
    (hs₂ : getField (Json.obj f₂) "s" = none) (ho₂ : getField (Json.obj f₂) "o" = none) :
    mangle (Json.obj f₁) = some "undefined::undefined" ∧
    (readLines parse [l₁, l₂]).jsonObjects = [Json.obj f₁] ∧
    ∀ w : Json, mangle (Json.obj [("s", Json.num 1), ("o", w)]) =
      mangle (Json.obj [("s", Json.str "1"), ("o", w)]) := by
  have hm₁ : mangle (Json.obj f₁) = some "undefined::undefined" := by
    rw [mangle_eq_of_ne_null (fun he => Json.noConfusion he), hs₁, ho₁]
    rfl
  have hm₂ : mangle (Json.obj f₂) = some "undefined::undefined" := by
    rw [mangle_eq_of_ne_null (fun he => Json.noConfusion he), hs₂, ho₂]
    rfl
  refine ⟨hm₁, ?_, ?_⟩
  · simp only [readLines, List.foldl_cons, List.foldl_nil]
    have s₁ : processLine parse ⟨[], [], []⟩ l₁ =
        ⟨["undefined::undefined"], [Json.obj f₁], []⟩ := by
      simp [processLine, hb₁, h₁, hm₁]
    have s₂ : processLine parse ⟨["undefined::undefined"], [Json.obj f₁], []⟩ l₂ =
        ⟨["undefined::undefined"], [Json.obj f₁], []⟩ := by
      simp [processLine, hb₂, h₂, hm₂]
    rw [s₁, s₂]
  · intro w
    rfl

/-- Witness for C10: `recBare` and `recBare2` carry different payloads and
no `s`/`o` fields; only the first survives. -/
theorem key_coercion_witness :
    mangle (Json.obj [("x", Json.num 7)]) = some "undefined::undefined" ∧
    (readLines sampleParse ["recBare", "recBare2"]).jsonObjects =
      [Json.obj [("x", Json.num 7)]] ∧
    ∀ w : Json, mangle (Json.obj [("s", Json.num 1), ("o", w)]) =
      mangle (Json.obj [("s", Json.str "1"), ("o", w)]) :=
  key_coercion sampleParse "recBare" "recBare2"
    [("x", Json.num 7)] [("y", Json.num 8)]
    rfl rfl (by decide) (by decide) rfl rfl rfl rfl

theorem string_mk_data (s : String) : String.mk s.data = s := rfl

theorem splitLinesAux_lf (rest acc : List Char) :
    splitLinesAux ('\n' :: rest) acc = String.mk acc.reverse :: splitLinesAux rest [] := by
  simp [splitLinesAux]

theorem splitLinesAux_crlf (rest acc : List Char) :
    splitLinesAux ('\r' :: '\n' :: rest) acc =
      String.mk acc.reverse :: splitLinesAux rest [] := by
  simp [splitLinesAux]

theorem splitLinesAux_char (c : Char) (rest acc : List Char)
    (h₁ : c ≠ '\n') (h₂ : c ≠ '\r') :
    splitLinesAux (c :: rest) acc = splitLinesAux rest (c :: acc) := by
  cases rest with
  | nil => simp [splitLinesAux, h₁, h₂]
  | cons c₂ rest₂ => simp [splitLinesAux, h₁, h₂]

theorem splitLinesAux_line (l : List Char) (hl : ∀ c ∈ l, c ≠ '\n' ∧ c ≠ '\r') :
    ∀ rest acc, splitLinesAux (l ++ '\n' :: rest) acc =
      String.mk (acc.reverse ++ l) :: splitLinesAux rest [] := by
  induction l with
  | nil =>
    intro rest acc
    rw [List.nil_append, splitLinesAux_lf]
    simp
  | cons c l ih =>
    intro rest acc
    have hc := hl c (List.mem_cons_self ..)
    rw [List.cons_append, splitLinesAux_char c _ _ hc.1 hc.2,
      ih (fun d hd => hl d (List.mem_cons_of_mem c hd))]
    simp [List.append_assoc]

theorem splitLinesAux_line_crlf (l : List Char) (hl : ∀ c ∈ l, c ≠ '\n' ∧ c ≠ '\r') :
    ∀ rest acc, splitLinesAux (l ++ '\r' :: '\n' :: rest) acc =
      String.mk (acc.reverse ++ l) :: splitLinesAux rest [] := by
  induction l with
  | nil =>
    intro rest acc
    rw [List.nil_append, splitLinesAux_crlf]
    simp
  | cons c l ih =>
    intro rest acc
    have hc := hl c (List.mem_cons_self ..)
    rw [List.cons_append, splitLinesAux_char c _ _ hc.1 hc.2,
      ih (fun d hd => hl d (List.mem_cons_of_mem c hd))]
    simp [List.append_assoc]

theorem splitLines_lf_terminated (ls : List String)
    (h : ∀ l ∈ ls, ∀ c ∈ l.data, c ≠ '\n' ∧ c ≠ '\r') :
    splitLines (terminateLines "\n" ls) = ls := by
  induction ls with
  | nil => rfl
  | cons l ls ih =>
    have hdata : (terminateLines "\n" (l :: ls)).data =
        l.data ++ '\n' :: (terminateLines "\n" ls).data := by
      show (l ++ "\n" ++ terminateLines "\n" ls).data = _
      rw [String.data_append, String.data_append]
      have hnl : ("\n" : String).data = ['\n'] := rfl
      rw [hnl]
      simp
    rw [splitLines, hdata, splitLinesAux_line l.data (h l (List.mem_cons_self ..))]
    refine congrArg₂ List.cons ?_ ?_
    · simp [string_mk_data]
    · exact ih (fun l₂ hl₂ => h l₂ (List.mem_cons_of_mem l hl₂))

theorem splitLines_crlf_terminated (ls : List String)
    (h : ∀ l ∈ ls, ∀ c ∈ l.data, c ≠ '\n' ∧ c ≠ '\r') :
    splitLines (terminateLines "\r\n" ls) = ls := by
  induction ls with
  | nil => rfl
  | cons l ls ih =>
    have hdata : (terminateLines "\r\n" (l :: ls)).data =
        l.data ++ '\r' :: '\n' :: (terminateLines "\r\n" ls).data := by
      show (l ++ "\r\n" ++ terminateLines "\r\n" ls).data = _
      rw [String.data_append, String.data_append]
      have hnl : ("\r\n" : String).data = ['\r', '\n'] := rfl
      rw [hnl]
      simp
    rw [splitLines, hdata, splitLinesAux_line_crlf l.data (h l (List.mem_cons_self ..))]
    refine congrArg₂ List.cons ?_ ?_
    · simp [string_mk_data]
    · exact ih (fun l₂ hl₂ => h l₂ (List.mem_cons_of_mem l hl₂))

/-- C7: the line splitter treats a bare line feed and a carriage-return and
line-feed pair as equivalent terminators: a text whose lines are terminated
by LF and the same text terminated by CRLF split into the same lines, and
the reader returns the same sequence on both. -/
theorem crlf_lf_equivalent (parse : String → Option Json) (ls : List String)
    (h : ∀ l ∈ ls, ∀ c ∈ l.data, c ≠ '\n' ∧ c ≠ '\r') :
    splitLines (terminateLines "\n" ls) = splitLines (terminateLines "\r\n" ls) ∧
    readLines parse (splitLines (terminateLines "\n" ls)) =
      readLines parse (splitLines (terminateLines "\r\n" ls)) := by
  rw [splitLines_lf_terminated ls h, splitLines_crlf_terminated ls h]
  exact ⟨rfl, rfl⟩

/-- Witness for C7 on a concrete two-line text. -/
theorem crlf_lf_equivalent_witness :
    splitLines (terminateLines "\n" ["recAB", "recAC"]) =
      splitLines (terminateLines "\r\n" ["recAB", "recAC"]) ∧
    readLines sampleParse (splitLines (terminateLines "\n" ["recAB", "recAC"])) =
      readLines sampleParse (splitLines (terminateLines "\r\n" ["recAB", "recAC"])) :=
  crlf_lf_equivalent sampleParse ["recAB", "recAC"] (by decide)
